import Mathlib

/-!
Verification of the pattern-scanning tool in `analyse.py`.

The tool (`CodeScanner`) holds three rule tables (AI indicators, style
suggestions, gas-optimization patterns), splits a file's contents into lines
on `'\n'`, and for every line runs every rule's regular expression with
Python's `re.finditer` (unanchored search, non-overlapping matches enumerated
left to right), collecting findings `{line, pattern, match, suggestion}`.
`generate_report` renders the three finding lists.

We embed Python's backtracking regex semantics for the constructs the rule
tables use: literals, case-insensitive literals (`(?i)...`), character
predicates (`\s`, `\w`, `.`, `[^x]`), concatenation, ordered alternation,
greedy `*`/`+`, lazy `+?`, and negative lookahead `(?!...)`.  The matcher
returns the list of possible remaining suffixes in backtracking priority
order; the head of that list is the match Python reports.  Recursion is
structural on a fuel argument so that the kernel can evaluate the matcher;
the fuel supplied by `mmatch` dominates the recursion depth, which is
bounded by `regexSize r * (length s + 1)` since every recursive step either
shrinks the regex or (for the Kleene-star self-step) strictly shrinks the
string.
-/

/-- Abstract syntax of the regular-expression fragment used by the rule
tables of `analyse.py`. -/
inductive Regex where
  | eps : Regex
  | pred : (Char → Bool) → Regex
  | str : List Char → Regex
  | istr : List Char → Regex
  | seq : Regex → Regex → Regex
  | alt : Regex → Regex → Regex
  | starG : Regex → Regex
  | starL : Regex → Regex
  | lookNeg : Regex → Regex

/-- Python's `\s` on ASCII input: space, tab, newline, carriage return,
vertical tab, form feed. -/
def pySpace (c : Char) : Bool :=
  c = ' ' || c = '\t' || c = '\n' || c = '\r' || c = '\x0b' || c = '\x0c'

/-- Python's `\w` on ASCII input: letters, digits, underscore. -/
def pyWord (c : Char) : Bool :=
  c.isAlpha || c.isDigit || c = '_'

/-- Python's `.` without DOTALL: any character except newline. -/
def pyDot (c : Char) : Bool :=
  c != '\n'

/-- Match a literal character list against the front of the input,
returning the remaining suffix on success. -/
def strMatch : List Char → List Char → Option (List Char)
  | [], s => some s
  | _ :: _, [] => none
  | c :: cs, d :: ds => if d = c then strMatch cs ds else none

/-- Case-insensitive variant of `strMatch`, comparing lowercased
characters (the `(?i)` patterns in the source are lowercase literals). -/
def istrMatch : List Char → List Char → Option (List Char)
  | [], s => some s
  | _ :: _, [] => none
  | c :: cs, d :: ds => if d.toLower = c.toLower then istrMatch cs ds else none

/-- Fueled backtracking matcher.  `mmatchF n r s` returns the list of
suffixes of `s` remaining after a match of `r` at the start of `s`, in
Python's backtracking priority order (head = the match Python commits to).
Greedy star tries the longest continuation first, lazy star the empty match
first; a star iteration is only taken when the body consumed at least one
character (none of the star bodies in the rule tables can match empty). -/
def mmatchF : Nat → Regex → List Char → List (List Char)
  | 0, _, _ => []
  | n + 1, r, s =>
    match r with
    | .eps => [s]
    | .pred p =>
      match s with
      | [] => []
      | c :: rest => if p c then [rest] else []
    | .str cs =>
      match strMatch cs s with
      | some rest => [rest]
      | none => []
    | .istr cs =>
      match istrMatch cs s with
      | some rest => [rest]
      | none => []
    | .seq a b => (mmatchF n a s).flatMap (fun t => mmatchF n b t)
    | .alt a b => mmatchF n a s ++ mmatchF n b s
    | .lookNeg r1 => if mmatchF n r1 s = [] then [s] else []
    | .starG r1 =>
      ((mmatchF n r1 s).filter (fun t => t.length < s.length)).flatMap
        (fun t => mmatchF n (.starG r1) t) ++ [s]
    | .starL r1 =>
      s :: ((mmatchF n r1 s).filter (fun t => t.length < s.length)).flatMap
        (fun t => mmatchF n (.starL r1) t)

/-- Size of a regex, used to compute a sufficient fuel bound. -/
def regexSize : Regex → Nat
  | .eps => 1
  | .pred _ => 1
  | .str _ => 1
  | .istr _ => 1
  | .seq a b => 1 + regexSize a + regexSize b
  | .alt a b => 1 + regexSize a + regexSize b
  | .starG r => 1 + regexSize r
  | .starL r => 1 + regexSize r
  | .lookNeg r => 1 + regexSize r

/-- Backtracking match of `r` at the start of `s`, with fuel ample for the
recursion depth bound `regexSize r * (length s + 1)`. -/
def mmatch (r : Regex) (s : List Char) : List (List Char) :=
  mmatchF ((regexSize r + 1) * (s.length + 2)) r s

/-- One step of Python's `re.finditer` scan: `findAux r l fuel i` collects
`(start, length)` spans of non-overlapping matches of `r` in `l` from
position `i` on, trying each position left to right and resuming after the
end of each match (after `i + 1` for a zero-width match).  The fuel
`l.length + 1 - i` bounds the number of scan steps. -/
def findAux (r : Regex) (l : List Char) : Nat → Nat → List (Nat × Nat)
  | 0, _ => []
  | fuel + 1, i =>
    if i ≤ l.length then
      match (mmatch r (l.drop i)).head? with
      | some rem =>
        (i, l.length - i - rem.length) ::
          findAux r l fuel (i + max (l.length - i - rem.length) 1)
      | none => findAux r l fuel (i + 1)
    else []

/-- Python's `re.finditer`: all non-overlapping `(start, length)` spans of
`r` in `l`, enumerated left to right. -/
def pyFinditer (r : Regex) (l : List Char) : List (Nat × Nat) :=
  findAux r l (l.length + 1) 0

/-- Literal regex from a string. -/
def rstr (s : String) : Regex := .str s.data

/-- Case-insensitive literal regex from a string. -/
def ristr (s : String) : Regex := .istr s.data

/-- Single-character regex from a character predicate. -/
def rchar (p : Char → Bool) : Regex := .pred p

/-- Concatenation of a list of regexes. -/
def rseq (l : List Regex) : Regex := l.foldr .seq .eps

/-- Ordered alternation `r₁|...|rₙ|last` (priority left to right). -/
def raltl (rs : List Regex) (last : Regex) : Regex := rs.foldr .alt last

/-- Greedy `+`. -/
def rplusG (r : Regex) : Regex := .seq r (.starG r)

/-- Lazy `+?`. -/
def rplusL (r : Regex) : Regex := .seq r (.starL r)

/-- A finding recorded by the scanner: the dictionary
`{line, pattern, match, suggestion}` built in `scan_file`. -/
structure Finding where
  line : Nat
  pattern : String
  matched : String
  suggestion : String
deriving DecidableEq, Repr

/-- One rule: the pattern text, its compiled regex, and the suggestion
attached to findings it produces. -/
structure Rule where
  pattern : String
  re : Regex
  suggestion : String

/-- The fixed suggestion attached to every AI-indicator finding. -/
def aiSuggestion : String := "Remove or refactor AI-generated indicator"

/-- `self.ai_indicators`: the thirteen AI-indicator patterns, with their
compiled regexes. -/
def ai_indicators : List (String × Regex) :=
  [ ("claude", rstr "claude"),
    ("gpt", rstr "gpt"),
    ("copilot", rstr "copilot"),
    ("TODO:", rstr "TODO:"),
    ("FIXME:", rstr "FIXME:"),
    ("(?i)generated by", ristr "generated by"),
    ("(?i)ai generated", ristr "ai generated"),
    ("(?i)openai", ristr "openai"),
    ("(?i)anthropic", ristr "anthropic"),
    ("console\\.log\\(", rstr "console.log("),
    ("// Out of context comment", rstr "// Out of context comment"),
    ("\\/\\/ Debug:", rstr "// Debug:"),
    ("(?i)note to self", ristr "note to self") ]

/-- The AI-indicator table as rules, every entry carrying the fixed
suggestion used in the AI branch of `scan_file`. -/
def aiRules : List Rule :=
  ai_indicators.map (fun pr => ⟨pr.1, pr.2, aiSuggestion⟩)

/-- `self.style_suggestions`: the four style rules, in declaration
(= dict insertion) order. -/
def style_suggestions : List Rule :=
  [ ⟨"public\\s+(?:uint256|int256|bool|address|string)",
     rseq [rstr "public", rplusG (rchar pySpace),
           raltl [rstr "uint256", rstr "int256", rstr "bool", rstr "address"]
             (rstr "string")],
     "Consider using more specific variable names for public state variables"⟩,
    ⟨"require\\([^,]+\\);",
     rseq [rstr "require(", rplusG (rchar (fun c => c != ',')), rstr ");"],
     "Consider adding error messages to require statements"⟩,
    ⟨"function\\s+\\w+\\s*\\([^)]*\\)\\s*public(?!\\s+view|\\s+pure)",
     rseq [rstr "function", rplusG (rchar pySpace), rplusG (rchar pyWord),
           .starG (rchar pySpace), rstr "(", .starG (rchar (fun c => c != ')')),
           rstr ")", .starG (rchar pySpace), rstr "public",
           .lookNeg (.alt (rseq [rplusG (rchar pySpace), rstr "view"])
                          (rseq [rplusG (rchar pySpace), rstr "pure"]))],
     "Consider if this function should be external instead of public"⟩,
    ⟨"[^/]\\/.+\\/\\/",
     rseq [rchar (fun c => c != '/'), rstr "/", rplusG (rchar pyDot), rstr "//"],
     "Multiple comments on same line - consider reformatting"⟩ ]

/-- `self.gas_optimization_patterns`: the three gas rules, in declaration
(= dict insertion) order. -/
def gas_optimization_patterns : List Rule :=
  [ ⟨"storage\\s+\\w+",
     rseq [rstr "storage", rplusG (rchar pySpace), rplusG (rchar pyWord)],
     "Consider caching storage variables in memory for multiple reads"⟩,
    ⟨"uint\\s+i\\s*=\\s*0;\\s*i\\s*<",
     rseq [rstr "uint", rplusG (rchar pySpace), rstr "i", .starG (rchar pySpace),
           rstr "=", .starG (rchar pySpace), rstr "0;", .starG (rchar pySpace),
           rstr "i", .starG (rchar pySpace), rstr "<"],
     "Consider unchecked block for loop counters"⟩,
    ⟨"require\\((.+?),[^)]+\\)",
     rseq [rstr "require(", rplusL (rchar pyDot), rstr ",",
           rplusG (rchar (fun c => c != ')')), rstr ")"],
     "Consider using custom errors instead of require with messages"⟩ ]

/-- The finding built for a match `(start, length)` of rule `r` found on
line `l` (1-based line number `ln`): Python's
`{'line': ln, 'pattern': pattern, 'match': match.group(), 'suggestion': ...}`. -/
def mkFinding (ln : Nat) (r : Rule) (l : List Char) (m : Nat × Nat) : Finding :=
  ⟨ln, r.pattern, ⟨(l.drop m.1).take m.2⟩, r.suggestion⟩

/-- All findings of one rule table on one line: for each rule in table
order, all `finditer` matches left to right. -/
def lineFindings (rules : List Rule) (ln : Nat) (l : List Char) : List Finding :=
  rules.flatMap (fun r => (pyFinditer r.re l).map (mkFinding ln r l))

/-- The `for line in content.split('\n')` loop for one rule table: findings
of each line in order, with the line counter starting at `ln`. -/
def scanLinesFrom (rules : List Rule) : Nat → List (List Char) → List Finding
  | _, [] => []
  | ln, l :: ls => lineFindings rules ln l ++ scanLinesFrom rules (ln + 1) ls

/-- Python's `content.split('\n')`: split on every newline, keeping empty
pieces; the empty string yields one empty line. -/
def splitLines : List Char → List (List Char)
  | [] => [[]]
  | c :: cs =>
    if c = '\n' then [] :: splitLines cs
    else
      match splitLines cs with
      | [] => [[c]]
      | l :: ls => (c :: l) :: ls

/-- `CodeScanner.scan_file` on file contents `content`: the triple
`(ai_findings, style_findings, gas_findings)`. -/
def scan_file (content : String) : List Finding × List Finding × List Finding :=
  let lines := splitLines content.data
  (scanLinesFrom aiRules 1 lines,
   scanLinesFrom style_suggestions 1 lines,
   scanLinesFrom gas_optimization_patterns 1 lines)

/-- The fixed AI-indicator section header printed by `generate_report`. -/
def aiHeader : String := "\n🤖 AI Indicators Found:"

/-- The fixed style section header printed by `generate_report`. -/
def styleHeader : String := "\n🎨 Style Suggestions:"

/-- The fixed gas section header printed by `generate_report`. -/
def gasHeader : String := "\n⛽ Gas Optimization Suggestions:"

/-- The confirmation line printed when all three finding lists are empty. -/
def noIssuesMsg : String := "✅ No issues found!"

/-- The 80-character `=` border of the report header. -/
def reportBorder : String := ⟨List.replicate 80 '='⟩

/-- The 40-character `-` rule printed under each category header. -/
def sectionRule : String := ⟨List.replicate 40 '-'⟩

/-- The two lines printed for one finding. -/
def findingLines (f : Finding) : List String :=
  ["Line " ++ (toString f.line ++ (": " ++ f.matched)),
   "Suggestion: " ++ (f.suggestion ++ "\n")]

/-- One category section: nothing when the finding list is empty, otherwise
the category header, the dashed rule, and two lines per finding. -/
def sectionLines (hdr : String) (fs : List Finding) : List String :=
  if fs.isEmpty then [] else hdr :: sectionRule :: fs.flatMap findingLines

/-- `CodeScanner.generate_report`, modelled as the list of strings printed
to standard output (one element per `print` call). -/
def generate_report (findings : List Finding × List Finding × List Finding)
    (filepath : String) : List String :=
  let ai := findings.1
  let st := findings.2.1
  let gas := findings.2.2
  ["\n" ++ reportBorder, "Scan Results for " ++ filepath, reportBorder ++ "\n"]
    ++ sectionLines aiHeader ai
    ++ sectionLines styleHeader st
    ++ sectionLines gasHeader gas
    ++ (if ai.isEmpty && st.isEmpty && gas.isEmpty then [noIssuesMsg] else [])

/-- Instrumented scan of one line that also records, for every finding, the
key `(line, rule index, match start)` witnessing its position in the output
order; `ri` is the index of the first rule of `rs` in its table. -/
def lineKeyedAux (ln : Nat) (l : List Char) :
    Nat → List Rule → List ((Nat × Nat × Nat) × Finding)
  | _, [] => []
  | ri, r :: rs =>
    (pyFinditer r.re l).map (fun m => ((ln, ri, m.1), mkFinding ln r l m))
      ++ lineKeyedAux ln l (ri + 1) rs

/-- Instrumented variant of `scanLinesFrom` carrying
`(line, rule index, match start)` keys. -/
def scanKeyed (rules : List Rule) : Nat → List (List Char) → List ((Nat × Nat × Nat) × Finding)
  | _, [] => []
  | ln, l :: ls => lineKeyedAux ln l 0 rules ++ scanKeyed rules (ln + 1) ls

/-- Strict lexicographic order on `(line, rule index, match start)` keys. -/
def keyLt (a b : Nat × Nat × Nat) : Prop :=
  a.1 < b.1 ∨ (a.1 = b.1 ∧ (a.2.1 < b.2.1 ∨ (a.2.1 = b.2.1 ∧ a.2.2 < b.2.2)))

/-- Syntactic check that every match of a regex consumes at least one
character.  All rules in the three default tables are consuming. -/
def consuming : Regex → Bool
  | .eps => false
  | .pred _ => true
  | .str cs => !cs.isEmpty
  | .istr cs => !cs.isEmpty
  | .seq a b => consuming a || consuming b
  | .alt a b => consuming a && consuming b
  | .starG _ => false
  | .starL _ => false
  | .lookNeg _ => false

theorem strMatch_length (cs : List Char) :
    ∀ s r, strMatch cs s = some r → s.length = cs.length + r.length := by
  induction cs with
  | nil =>
    intro s r h
    simp [strMatch] at h
    simp [h]
  | cons c cs ih =>
    intro s r h
    cases s with
    | nil => simp [strMatch] at h
    | cons d ds =>
      by_cases hd : d = c
      · simp only [strMatch, if_pos hd] at h
        have := ih ds r h
        simp only [List.length_cons]
        omega
      · simp [strMatch, hd] at h

theorem istrMatch_length (cs : List Char) :
    ∀ s r, istrMatch cs s = some r → s.length = cs.length + r.length := by
  induction cs with
  | nil =>
    intro s r h
    simp [istrMatch] at h
    simp [h]
  | cons c cs ih =>
    intro s r h
    cases s with
    | nil => simp [istrMatch] at h
    | cons d ds =>
      by_cases hd : d.toLower = c.toLower
      · simp only [istrMatch, if_pos hd] at h
        have := ih ds r h
        simp only [List.length_cons]
        omega
      · simp [istrMatch, hd] at h

theorem mmatchF_length :
    ∀ (n : Nat) (r : Regex) (s t : List Char), t ∈ mmatchF n r s → t.length ≤ s.length := by
  intro n
  induction n with
  | zero => intro r s t h; simp [mmatchF] at h
  | succ n ih =>
    intro r s t h
    cases r with
    | eps =>
      simp [mmatchF] at h
      simp [h]
    | pred p =>
      cases s with
      | nil => simp [mmatchF] at h
      | cons c rest =>
        by_cases hp : p c = true
        · simp [mmatchF, hp] at h
          simp [h, List.length_cons]
        · simp [mmatchF, hp] at h
    | str cs =>
      cases hm : strMatch cs s with
      | none => simp [mmatchF, hm] at h
      | some rest =>
        simp [mmatchF, hm] at h
        subst h
        have := strMatch_length cs s t hm
        omega
    | istr cs =>
      cases hm : istrMatch cs s with
      | none => simp [mmatchF, hm] at h
      | some rest =>
        simp [mmatchF, hm] at h
        subst h
        have := istrMatch_length cs s t hm
        omega
    | seq a b =>
      simp only [mmatchF, List.mem_flatMap] at h
      obtain ⟨u, hu, ht⟩ := h
      exact le_trans (ih b u t ht) (ih a s u hu)
    | alt a b =>
      simp only [mmatchF, List.mem_append] at h
      rcases h with h | h
      · exact ih a s t h
      · exact ih b s t h
    | lookNeg r1 =>
      by_cases hc : mmatchF n r1 s = []
      · simp [mmatchF, hc] at h
        simp [h]
      · simp [mmatchF, hc] at h
    | starG r1 =>
      simp only [mmatchF, List.mem_append, List.mem_flatMap, List.mem_filter,
        List.mem_singleton, decide_eq_true_eq] at h
      rcases h with ⟨u, ⟨hu, hlt⟩, ht⟩ | h
      · have h1 := ih (.starG r1) u t ht
        omega
      · simp [h]
    | starL r1 =>
      simp only [mmatchF, List.mem_cons, List.mem_flatMap, List.mem_filter,
        decide_eq_true_eq] at h
      rcases h with h | ⟨u, ⟨hu, hlt⟩, ht⟩
      · simp [h]
      · have h1 := ih (.starL r1) u t ht
        omega

theorem mmatchF_consuming :
    ∀ (n : Nat) (r : Regex) (s t : List Char), consuming r = true →
      t ∈ mmatchF n r s → t.length < s.length := by
  intro n
  induction n with
  | zero => intro r s t _ h; simp [mmatchF] at h
  | succ n ih =>
    intro r s t hc h
    cases r with
    | eps => simp [consuming] at hc
    | pred p =>
      cases s with
      | nil => simp [mmatchF] at h
      | cons c rest =>
        by_cases hp : p c = true
        · simp [mmatchF, hp] at h
          simp [h, List.length_cons]
        · simp [mmatchF, hp] at h
    | str cs =>
      cases hm : strMatch cs s with
      | none => simp [mmatchF, hm] at h
      | some rest =>
        simp [mmatchF, hm] at h
        subst h
        have h1 := strMatch_length cs s t hm
        have h2 : cs ≠ [] := by
          intro he
          simp [consuming, he] at hc
        have h3 : 0 < cs.length := List.length_pos.mpr h2
        omega
    | istr cs =>
      cases hm : istrMatch cs s with
      | none => simp [mmatchF, hm] at h
      | some rest =>
        simp [mmatchF, hm] at h
        subst h
        have h1 := istrMatch_length cs s t hm
        have h2 : cs ≠ [] := by
          intro he
          simp [consuming, he] at hc
        have h3 : 0 < cs.length := List.length_pos.mpr h2
        omega
    | seq a b =>
      simp only [mmatchF, List.mem_flatMap] at h
      obtain ⟨u, hu, ht⟩ := h
      rcases Bool.or_eq_true _ _ |>.mp (by simpa [consuming] using hc) with hca | hcb
      · exact lt_of_le_of_lt (mmatchF_length n b u t ht) (ih a s u hca hu)
      · exact lt_of_lt_of_le (ih b u t hcb ht) (mmatchF_length n a s u hu)
    | alt a b =>
      have hboth := Bool.and_eq_true _ _ |>.mp (by simpa [consuming] using hc)
      simp only [mmatchF, List.mem_append] at h
      rcases h with h | h
      · exact ih a s t hboth.1 h
      · exact ih b s t hboth.2 h
    | lookNeg r1 => simp [consuming] at hc
    | starG r1 => simp [consuming] at hc
    | starL r1 => simp [consuming] at hc

theorem mmatch_length (r : Regex) (s t : List Char) (h : t ∈ mmatch r s) :
    t.length ≤ s.length :=
  mmatchF_length _ r s t h

theorem mmatch_consuming (r : Regex) (s t : List Char) (hc : consuming r = true)
    (h : t ∈ mmatch r s) : t.length < s.length :=
  mmatchF_consuming _ r s t hc h

theorem findAux_start (r : Regex) (l : List Char) :
    ∀ (fuel i : Nat), ∀ m ∈ findAux r l fuel i, i ≤ m.1 := by
  intro fuel
  induction fuel with
  | zero => intro i m h; simp [findAux] at h
  | succ fuel ih =>
    intro i m h
    simp only [findAux] at h
    split at h
    · split at h
      · rcases List.mem_cons.mp h with h1 | h1
        · subst h1; simp
        · have := ih _ m h1
          omega
      · have := ih _ m h
        omega
    · simp at h

theorem findAux_pairwise (r : Regex) (l : List Char) :
    ∀ (fuel i : Nat),
      List.Pairwise (fun a b : Nat × Nat => a.1 + a.2 ≤ b.1 ∧ a.1 < b.1)
        (findAux r l fuel i) := by
  intro fuel
  induction fuel with
  | zero => intro i; simp [findAux]
  | succ fuel ih =>
    intro i
    simp only [findAux]
    split
    · split
      · refine List.Pairwise.cons ?_ (ih _)
        intro b hb
        have hstart := findAux_start r l fuel _ b hb
        refine ⟨?_, ?_⟩ <;> simp <;> omega
      · exact ih _
    · exact List.Pairwise.nil

theorem findAux_mem (r : Regex) (l : List Char) :
    ∀ (fuel i : Nat), ∀ m ∈ findAux r l fuel i,
      m.1 ≤ l.length ∧
      ∃ rem ∈ mmatch r (l.drop m.1), m.2 = l.length - m.1 - rem.length := by
  intro fuel
  induction fuel with
  | zero => intro i m h; simp [findAux] at h
  | succ fuel ih =>
    intro i m h
    simp only [findAux] at h
    split at h
    · rename_i hi
      split at h
      · rename_i rem heq
        rcases List.mem_cons.mp h with h1 | h1
        · subst h1
          exact ⟨hi, rem, List.mem_of_mem_head? heq, rfl⟩
        · exact ih _ m h1
      · exact ih _ m h
    · simp at h

theorem pyFinditer_pairwise (r : Regex) (l : List Char) :
    List.Pairwise (fun a b : Nat × Nat => a.1 + a.2 ≤ b.1 ∧ a.1 < b.1)
      (pyFinditer r l) :=
  findAux_pairwise r l (l.length + 1) 0

theorem pyFinditer_mem (r : Regex) (l : List Char) (m : Nat × Nat)
    (h : m ∈ pyFinditer r l) :
    m.1 ≤ l.length ∧
    ∃ rem ∈ mmatch r (l.drop m.1), m.2 = l.length - m.1 - rem.length :=
  findAux_mem r l (l.length + 1) 0 m h

theorem pyFinditer_len_pos (r : Regex) (l : List Char) (m : Nat × Nat)
    (hc : consuming r = true) (h : m ∈ pyFinditer r l) :
    1 ≤ m.2 ∧ 1 ≤ l.length - m.1 := by
  obtain ⟨hle, rem, hmem, hlen⟩ := pyFinditer_mem r l m h
  have hlt := mmatch_consuming r (l.drop m.1) rem hc hmem
  rw [List.length_drop] at hlt
  omega

theorem lineFindings_mem (rules : List Rule) (ln : Nat) (l : List Char) (f : Finding) :
    f ∈ lineFindings rules ln l ↔
      ∃ r ∈ rules, ∃ m ∈ pyFinditer r.re l, mkFinding ln r l m = f := by
  simp [lineFindings, List.mem_flatMap, List.mem_map]

theorem scanLinesFrom_mem (rules : List Rule) :
    ∀ (ls : List (List Char)) (n : Nat) (f : Finding),
      f ∈ scanLinesFrom rules n ls ↔
        ∃ i line, ls[i]? = some line ∧ f ∈ lineFindings rules (n + i) line := by
  intro ls
  induction ls with
  | nil => intro n f; simp [scanLinesFrom]
  | cons l ls ih =>
    intro n f
    constructor
    · intro h
      rcases List.mem_append.mp (by simpa [scanLinesFrom] using h) with h1 | h1
      · exact ⟨0, l, by simp, by simpa using h1⟩
      · obtain ⟨i, line, hg, hf⟩ := (ih (n + 1) f).mp h1
        have harith : n + 1 + i = n + (i + 1) := by omega
        rw [harith] at hf
        exact ⟨i + 1, line, by simpa using hg, hf⟩
    · rintro ⟨i, line, hg, hf⟩
      simp only [scanLinesFrom, List.mem_append]
      cases i with
      | zero =>
        left
        simp only [List.getElem?_cons_zero, Option.some.injEq] at hg
        subst hg
        simpa using hf
      | succ i =>
        right
        have harith : n + (i + 1) = n + 1 + i := by omega
        rw [harith] at hf
        exact (ih (n + 1) f).mpr ⟨i, line, by simpa using hg, hf⟩

theorem lineFindings_line (rules : List Rule) (ln : Nat) (l : List Char) (f : Finding)
    (h : f ∈ lineFindings rules ln l) : f.line = ln := by
  obtain ⟨r, _, m, _, hmk⟩ := (lineFindings_mem rules ln l f).mp h
  subst hmk
  rfl

theorem scanLinesFrom_line_ge (rules : List Rule) (ls : List (List Char)) (n : Nat)
    (f : Finding) (h : f ∈ scanLinesFrom rules n ls) : n ≤ f.line := by
  obtain ⟨i, line, _, hf⟩ := (scanLinesFrom_mem rules ls n f).mp h
  have := lineFindings_line rules (n + i) line f hf
  omega

theorem scanLinesFrom_pairwise (rules : List Rule) :
    ∀ (ls : List (List Char)) (n : Nat),
      List.Pairwise (fun a b : Finding => a.line ≤ b.line) (scanLinesFrom rules n ls) := by
  intro ls
  induction ls with
  | nil => intro n; simp [scanLinesFrom]
  | cons l ls ih =>
    intro n
    simp only [scanLinesFrom]
    refine List.pairwise_append.mpr ⟨?_, ih (n + 1), ?_⟩
    · refine List.pairwise_of_forall_mem_list (fun a ha b hb => ?_)
      rw [lineFindings_line rules n l a ha, lineFindings_line rules n l b hb]
    · intro a ha b hb
      rw [lineFindings_line rules n l a ha]
      have := scanLinesFrom_line_ge rules ls (n + 1) b hb
      omega

theorem splitLines_ne_nil : ∀ l : List Char, splitLines l ≠ [] := by
  intro l
  cases l with
  | nil => simp [splitLines]
  | cons c cs =>
    by_cases hc : c = '\n'
    · simp [splitLines, hc]
    · simp only [splitLines, if_neg hc]
      cases h : splitLines cs <;> simp

theorem splitLines_no_newline : ∀ l : List Char, (∀ c ∈ l, c ≠ '\n') →
    splitLines l = [l] := by
  intro l
  induction l with
  | nil => intro _; rfl
  | cons c cs ih =>
    intro h
    have hc : c ≠ '\n' := h c (List.mem_cons_self c cs)
    have hcs := ih (fun d hd => h d (List.mem_cons_of_mem c hd))
    simp only [splitLines, if_neg hc, hcs]

theorem splitLines_append_newline : ∀ l : List Char,
    splitLines (l ++ ['\n']) = splitLines l ++ [[]] := by
  intro l
  induction l with
  | nil => rfl
  | cons c cs ih =>
    by_cases hc : c = '\n'
    · simp only [List.cons_append, splitLines, if_pos hc, List.append_eq, ih]
    · simp only [List.cons_append, splitLines, if_neg hc, List.append_eq, ih]
      cases h : splitLines cs with
      | nil => exact absurd h (splitLines_ne_nil cs)
      | cons x xs => simp [h]

theorem lineFindings_eq_nil (rules : List Rule) (ln : Nat) (l : List Char) :
    (∀ r ∈ rules, pyFinditer r.re l = []) → lineFindings rules ln l = [] := by
  induction rules with
  | nil => intro _; rfl
  | cons r rs ih =>
    intro h
    have h1 := h r (List.mem_cons_self r rs)
    have h2 := ih (fun x hx => h x (List.mem_cons_of_mem r hx))
    simp only [lineFindings, List.flatMap_cons] at h2 ⊢
    rw [h1, h2]
    rfl

theorem scanLinesFrom_eq_nil (rules : List Rule) :
    ∀ (ls : List (List Char)) (n : Nat),
      (∀ l ∈ ls, ∀ r ∈ rules, pyFinditer r.re l = []) →
      scanLinesFrom rules n ls = [] := by
  intro ls
  induction ls with
  | nil => intro n _; rfl
  | cons l ls ih =>
    intro n h
    simp only [scanLinesFrom]
    rw [lineFindings_eq_nil rules n l (h l (List.mem_cons_self l ls)),
      ih (n + 1) (fun x hx r hr => h x (List.mem_cons_of_mem l hx) r hr)]
    rfl

theorem scanLinesFrom_append_empty (rules : List Rule)
    (hnil : ∀ r ∈ rules, pyFinditer r.re [] = []) :
    ∀ (ls : List (List Char)) (n : Nat),
      scanLinesFrom rules n (ls ++ [[]]) = scanLinesFrom rules n ls := by
  intro ls
  induction ls with
  | nil =>
    intro n
    simp only [List.nil_append, scanLinesFrom]
    rw [lineFindings_eq_nil rules n [] hnil]
    rfl
  | cons l ls ih =>
    intro n
    simp only [List.cons_append, scanLinesFrom, List.append_eq, ih (n + 1)]

theorem lineKeyedAux_map_snd (ln : Nat) (l : List Char) :
    ∀ (rs : List Rule) (ri : Nat),
      (lineKeyedAux ln l ri rs).map Prod.snd = lineFindings rs ln l := by
  intro rs
  induction rs with
  | nil => intro ri; rfl
  | cons r rs ih =>
    intro ri
    simp only [lineKeyedAux, lineFindings, List.flatMap_cons, List.map_append,
      List.map_map]
    rw [ih (ri + 1)]
    simp [lineFindings, Function.comp]

theorem scanKeyed_map_snd (rules : List Rule) :
    ∀ (ls : List (List Char)) (n : Nat),
      (scanKeyed rules n ls).map Prod.snd = scanLinesFrom rules n ls := by
  intro ls
  induction ls with
  | nil => intro n; rfl
  | cons l ls ih =>
    intro n
    simp only [scanKeyed, scanLinesFrom, List.map_append, ih (n + 1),
      lineKeyedAux_map_snd]

theorem lineKeyedAux_key (ln : Nat) (l : List Char) :
    ∀ (rs : List Rule) (ri : Nat), ∀ x ∈ lineKeyedAux ln l ri rs,
      x.1.1 = ln ∧ ri ≤ x.1.2.1 := by
  intro rs
  induction rs with
  | nil => intro ri x hx; simp [lineKeyedAux] at hx
  | cons r rs ih =>
    intro ri x hx
    simp only [lineKeyedAux] at hx
    rcases List.mem_append.mp hx with h | h
    · obtain ⟨m, _, hm⟩ := List.mem_map.mp h
      subst hm
      exact ⟨rfl, le_refl _⟩
    · have h1 := ih (ri + 1) x h
      exact ⟨h1.1, by omega⟩

theorem lineKeyedAux_pairwise (ln : Nat) (l : List Char) :
    ∀ (rs : List Rule) (ri : Nat),
      List.Pairwise (fun x y => keyLt x.1 y.1) (lineKeyedAux ln l ri rs) := by
  intro rs
  induction rs with
  | nil => intro ri; simp [lineKeyedAux]
  | cons r rs ih =>
    intro ri
    simp only [lineKeyedAux]
    refine List.pairwise_append.mpr ⟨?_, ih (ri + 1), ?_⟩
    · refine (List.pairwise_map).mpr ?_
      refine List.Pairwise.imp ?_ (pyFinditer_pairwise r.re l)
      intro a b hab
      exact Or.inr ⟨rfl, Or.inr ⟨rfl, hab.2⟩⟩
    · intro x hx y hy
      obtain ⟨m, _, hm⟩ := List.mem_map.mp hx
      subst hm
      have hk := lineKeyedAux_key ln l rs (ri + 1) y hy
      refine Or.inr ⟨hk.1.symm, Or.inl ?_⟩
      have hx2 : (((ln, ri, m.1), mkFinding ln r l m)).1.2.1 = ri := rfl
      omega

theorem scanKeyed_key_line (rules : List Rule) :
    ∀ (ls : List (List Char)) (n : Nat), ∀ x ∈ scanKeyed rules n ls, n ≤ x.1.1 := by
  intro ls
  induction ls with
  | nil => intro n x hx; simp [scanKeyed] at hx
  | cons l ls ih =>
    intro n x hx
    simp only [scanKeyed] at hx
    rcases List.mem_append.mp hx with h | h
    · exact (lineKeyedAux_key n l rules 0 x h).1.ge
    · have := ih (n + 1) x h
      omega

theorem scanKeyed_pairwise (rules : List Rule) :
    ∀ (ls : List (List Char)) (n : Nat),
      List.Pairwise (fun x y => keyLt x.1 y.1) (scanKeyed rules n ls) := by
  intro ls
  induction ls with
  | nil => intro n; simp [scanKeyed]
  | cons l ls ih =>
    intro n
    simp only [scanKeyed]
    refine List.pairwise_append.mpr ⟨lineKeyedAux_pairwise n l rules 0, ih (n + 1), ?_⟩
    intro x hx y hy
    have hx1 := (lineKeyedAux_key n l rules 0 x hx).1
    have hy1 := scanKeyed_key_line rules ls (n + 1) y hy
    exact Or.inl (by omega)

theorem aiRules_suggestion (r : Rule) (h : r ∈ aiRules) :
    r.suggestion = aiSuggestion := by
  obtain ⟨pr, _, hpr⟩ := List.mem_map.mp h
  subst hpr
  rfl

theorem append_head_ne {c d : Char} {p q : String} {cp cq : List Char}
    (hcd : c ≠ d) (hp : p.data = c :: cp) (hq : q.data = d :: cq) (t : String) :
    p ++ t ≠ q := by
  intro h
  have h2 : (p ++ t).data = q.data := congrArg String.data h
  rw [String.data_append, hp, hq, List.cons_append] at h2
  injection h2 with h3 _
  exact hcd h3

theorem mkFinding_matched_infix (ln : Nat) (r : Rule) (l : List Char) (m : Nat × Nat) :
    (mkFinding ln r l m).matched.data <:+: l :=
  ((List.take_prefix m.2 (l.drop m.1)).isInfix).trans ((List.drop_suffix m.1 l).isInfix)

theorem generate_report_eq (ai st gas : List Finding) (fp : String) :
    generate_report (ai, st, gas) fp =
      ["\n" ++ reportBorder, "Scan Results for " ++ fp, reportBorder ++ "\n"]
        ++ sectionLines aiHeader ai ++ sectionLines styleHeader st
        ++ sectionLines gasHeader gas
        ++ (if ai.isEmpty && st.isEmpty && gas.isEmpty then [noIssuesMsg] else []) :=
  rfl

theorem noIssues_notin_section (hdr : String) (fs : List Finding)
    (hhdr : hdr ≠ noIssuesMsg) : noIssuesMsg ∉ sectionLines hdr fs := by
  intro hmem
  unfold sectionLines at hmem
  split at hmem
  · simp at hmem
  · rcases List.mem_cons.mp hmem with h | hmem
    · exact hhdr h.symm
    rcases List.mem_cons.mp hmem with h | hmem
    · exact (by decide : sectionRule ≠ noIssuesMsg) h.symm
    obtain ⟨f, _, hf⟩ := List.mem_flatMap.mp hmem
    rcases List.mem_cons.mp hf with h | hf
    · exact (append_head_ne (by decide : ('L' : Char) ≠ '✅') rfl rfl
        (toString f.line ++ (": " ++ f.matched))) h.symm
    rcases List.mem_cons.mp hf with h | hf
    · exact (append_head_ne (by decide : ('S' : Char) ≠ '✅') rfl rfl
        (f.suggestion ++ "\n")) h.symm
    · simp at hf

/-- C1: on the single line `require(x > 0, "must be positive");` the scan
yields exactly one gas-optimization finding, produced by the
`require\((.+?),[^)]+\)` rule with the custom-errors suggestion, and no
style finding at all — in particular none from the `require\([^,]+\);`
rule, which demands no comma before the closing `);`. -/
theorem scan_require_with_message :
    (scan_file "require(x > 0, \"must be positive\");").2.2 =
      [⟨1, "require\\((.+?),[^)]+\\)", "require(x > 0, \"must be positive\")",
        "Consider using custom errors instead of require with messages"⟩] ∧
    (scan_file "require(x > 0, \"must be positive\");").2.1 = [] := by
  decide

/-- C2: when no rule of any of the three default tables matches anywhere in
any line of the input, `scan_file` returns three empty finding lists. -/
theorem scan_file_no_matches (content : String)
    (h : ∀ r ∈ aiRules ++ style_suggestions ++ gas_optimization_patterns,
         ∀ l ∈ splitLines content.data, pyFinditer r.re l = []) :
    scan_file content = ([], [], []) := by
  have key : ∀ rules : List Rule,
      (∀ r ∈ rules, ∀ l ∈ splitLines content.data, pyFinditer r.re l = []) →
      scanLinesFrom rules 1 (splitLines content.data) = [] := fun rules hr =>
    scanLinesFrom_eq_nil rules _ 1 (fun l hl r hrr => hr r hrr l hl)
  show (scanLinesFrom aiRules 1 (splitLines content.data),
        scanLinesFrom style_suggestions 1 (splitLines content.data),
        scanLinesFrom gas_optimization_patterns 1 (splitLines content.data)) =
      ([], [], [])
  rw [key aiRules (fun r hr => h r (by simp [hr])),
    key style_suggestions (fun r hr => h r (by simp [hr])),
    key gas_optimization_patterns (fun r hr => h r (by simp [hr]))]

theorem scan_file_no_matches_witness : scan_file "" = ([], [], []) :=
  scan_file_no_matches "" (by decide)

/-- C3: every finding produced by `scan_file` carries the 1-based index of
the line (obtained by splitting the input on newlines) in which its match
was found, and its matched text is a contiguous substring of that line. -/
theorem scan_file_line_and_substring (content : String) (f : Finding)
    (h : f ∈ (scan_file content).1 ∨ f ∈ (scan_file content).2.1 ∨
         f ∈ (scan_file content).2.2) :
    ∃ i line, (splitLines content.data)[i]? = some line ∧
      f.line = i + 1 ∧ f.matched.data <:+: line := by
  have key : ∀ rules : List Rule,
      f ∈ scanLinesFrom rules 1 (splitLines content.data) →
      ∃ i line, (splitLines content.data)[i]? = some line ∧
        f.line = i + 1 ∧ f.matched.data <:+: line := by
    intro rules hf
    obtain ⟨i, line, hg, hl⟩ := (scanLinesFrom_mem rules _ 1 f).mp hf
    obtain ⟨r, _, m, _, hmk⟩ := (lineFindings_mem rules (1 + i) line f).mp hl
    refine ⟨i, line, hg, ?_, ?_⟩
    · rw [← hmk]
      simp [mkFinding]
      omega
    · rw [← hmk]
      exact mkFinding_matched_infix (1 + i) r line m
  rcases h with h | h | h
  · exact key aiRules h
  · exact key style_suggestions h
  · exact key gas_optimization_patterns h

theorem scan_file_line_and_substring_witness :
    ∃ i line, (splitLines ("claude" : String).data)[i]? = some line ∧
      (⟨1, "claude", "claude", aiSuggestion⟩ : Finding).line = i + 1 ∧
      (⟨1, "claude", "claude", aiSuggestion⟩ : Finding).matched.data <:+: line :=
  scan_file_line_and_substring "claude" ⟨1, "claude", "claude", aiSuggestion⟩
    (Or.inl (by decide))

/-- C4: in each of the three finding lists returned by `scan_file`, line
numbers are 1-based (each is at least 1) and monotonically non-decreasing
along the list; a single line may contribute zero, one, or many findings. -/
theorem scan_file_lines_monotone (content : String) :
    (List.Pairwise (fun a b : Finding => a.line ≤ b.line) (scan_file content).1 ∧
      ∀ f ∈ (scan_file content).1, 1 ≤ f.line) ∧
    (List.Pairwise (fun a b : Finding => a.line ≤ b.line) (scan_file content).2.1 ∧
      ∀ f ∈ (scan_file content).2.1, 1 ≤ f.line) ∧
    (List.Pairwise (fun a b : Finding => a.line ≤ b.line) (scan_file content).2.2 ∧
      ∀ f ∈ (scan_file content).2.2, 1 ≤ f.line) :=
  ⟨⟨scanLinesFrom_pairwise aiRules _ 1,
    fun f hf => scanLinesFrom_line_ge aiRules _ 1 f hf⟩,
   ⟨scanLinesFrom_pairwise style_suggestions _ 1,
    fun f hf => scanLinesFrom_line_ge style_suggestions _ 1 f hf⟩,
   ⟨scanLinesFrom_pairwise gas_optimization_patterns _ 1,
    fun f hf => scanLinesFrom_line_ge gas_optimization_patterns _ 1 f hf⟩⟩

theorem scan_file_lines_monotone_witness :
    (List.Pairwise (fun a b : Finding => a.line ≤ b.line) (scan_file "claude").1 ∧
      ∀ f ∈ (scan_file "claude").1, 1 ≤ f.line) ∧
    (List.Pairwise (fun a b : Finding => a.line ≤ b.line) (scan_file "claude").2.1 ∧
      ∀ f ∈ (scan_file "claude").2.1, 1 ≤ f.line) ∧
    (List.Pairwise (fun a b : Finding => a.line ≤ b.line) (scan_file "claude").2.2 ∧
      ∀ f ∈ (scan_file "claude").2.2, 1 ≤ f.line) :=
  scan_file_lines_monotone "claude"

/-- C5: for every rule of the three default tables and every line of the
input, the match spans recorded by `pyFinditer` are enumerated left to
right and never overlap: every later match begins at or after the end of
every earlier match (and strictly after its start). -/
theorem finditer_no_overlap (content : String) (r : Rule)
    (_hr : r ∈ aiRules ++ style_suggestions ++ gas_optimization_patterns)
    (l : List Char) (_hl : l ∈ splitLines content.data) :
    List.Pairwise (fun a b : Nat × Nat => a.1 + a.2 ≤ b.1 ∧ a.1 < b.1)
      (pyFinditer r.re l) :=
  pyFinditer_pairwise r.re l

theorem finditer_no_overlap_witness :
    List.Pairwise (fun a b : Nat × Nat => a.1 + a.2 ≤ b.1 ∧ a.1 < b.1)
      (pyFinditer (Rule.re ⟨"claude", rstr "claude", aiSuggestion⟩)
        ("claude" : String).data) :=
  finditer_no_overlap "claude" ⟨"claude", rstr "claude", aiSuggestion⟩
    (List.mem_append_left _ (List.mem_append_left _ (List.Mem.head _)))
    ("claude" : String).data (by decide)

/-- C6: every finding in the AI-indicator list carries exactly the fixed
suggestion string "Remove or refactor AI-generated indicator", whichever
AI pattern matched, and records the triggering 1-based line number, the
rule's pattern text, and the exact matched substring of that line. -/
theorem ai_findings_shape (content : String) (f : Finding)
    (h : f ∈ (scan_file content).1) :
    f.suggestion = "Remove or refactor AI-generated indicator" ∧
    ∃ i line, (splitLines content.data)[i]? = some line ∧ f.line = i + 1 ∧
      ∃ pr ∈ ai_indicators, f.pattern = pr.1 ∧
        ∃ m ∈ pyFinditer pr.2 line, f.matched = ⟨(line.drop m.1).take m.2⟩ := by
  have h1 : f ∈ scanLinesFrom aiRules 1 (splitLines content.data) := h
  obtain ⟨i, line, hg, hl⟩ := (scanLinesFrom_mem aiRules _ 1 f).mp h1
  obtain ⟨r, hrmem, m, hm, hmk⟩ := (lineFindings_mem aiRules (1 + i) line f).mp hl
  obtain ⟨pr, hpr, hpr2⟩ := List.mem_map.mp hrmem
  subst hpr2
  constructor
  · rw [← hmk]
    rfl
  · refine ⟨i, line, hg, ?_, pr, hpr, ?_, m, hm, ?_⟩
    · rw [← hmk]
      simp [mkFinding]
      omega
    · rw [← hmk]
      rfl
    · rw [← hmk]
      rfl

theorem ai_findings_shape_witness :
    (⟨1, "claude", "claude", aiSuggestion⟩ : Finding).suggestion =
      "Remove or refactor AI-generated indicator" ∧
    ∃ i line, (splitLines ("claude" : String).data)[i]? = some line ∧
      (⟨1, "claude", "claude", aiSuggestion⟩ : Finding).line = i + 1 ∧
      ∃ pr ∈ ai_indicators,
        (⟨1, "claude", "claude", aiSuggestion⟩ : Finding).pattern = pr.1 ∧
        ∃ m ∈ pyFinditer pr.2 line,
          (⟨1, "claude", "claude", aiSuggestion⟩ : Finding).matched =
            ⟨(line.drop m.1).take m.2⟩ :=
  ai_findings_shape "claude" ⟨1, "claude", "claude", aiSuggestion⟩ (by decide)

/-- C7: no rule of the three default tables matches the empty string; a
trailing newline in the input (which contributes a final empty line after
splitting) therefore never changes the scan result, and every finding
returned by `scan_file` has non-empty matched text. -/
theorem no_empty_matches :
    (∀ r ∈ aiRules ++ style_suggestions ++ gas_optimization_patterns,
       pyFinditer r.re [] = []) ∧
    (∀ content : String, scan_file (content ++ "\n") = scan_file content) ∧
    (∀ content : String, ∀ f : Finding,
       (f ∈ (scan_file content).1 ∨ f ∈ (scan_file content).2.1 ∨
        f ∈ (scan_file content).2.2) → f.matched ≠ "") := by
  have hnil : ∀ r ∈ aiRules ++ style_suggestions ++ gas_optimization_patterns,
      pyFinditer r.re [] = [] := by decide
  have hcons : ∀ r ∈ aiRules ++ style_suggestions ++ gas_optimization_patterns,
      consuming r.re = true := by decide
  refine ⟨hnil, ?_, ?_⟩
  · intro content
    have hdata : (content ++ "\n").data = content.data ++ ['\n'] := by
      rw [String.data_append]
    show (scanLinesFrom aiRules 1 (splitLines (content ++ "\n").data),
          scanLinesFrom style_suggestions 1 (splitLines (content ++ "\n").data),
          scanLinesFrom gas_optimization_patterns 1 (splitLines (content ++ "\n").data)) =
        (scanLinesFrom aiRules 1 (splitLines content.data),
         scanLinesFrom style_suggestions 1 (splitLines content.data),
         scanLinesFrom gas_optimization_patterns 1 (splitLines content.data))
    rw [hdata, splitLines_append_newline,
      scanLinesFrom_append_empty aiRules (fun r hr => hnil r (by simp [hr])),
      scanLinesFrom_append_empty style_suggestions (fun r hr => hnil r (by simp [hr])),
      scanLinesFrom_append_empty gas_optimization_patterns
        (fun r hr => hnil r (by simp [hr]))]
  · intro content f h
    have key : ∀ rules : List Rule, (∀ r ∈ rules, consuming r.re = true) →
        f ∈ scanLinesFrom rules 1 (splitLines content.data) → f.matched ≠ "" := by
      intro rules hrc hf
      obtain ⟨i, line, _, hl⟩ := (scanLinesFrom_mem rules _ 1 f).mp hf
      obtain ⟨r, hrmem, m, hm, hmk⟩ := (lineFindings_mem rules (1 + i) line f).mp hl
      have hpos := pyFinditer_len_pos r.re line m (hrc r hrmem) hm
      intro he
      have hdata : f.matched.data = (line.drop m.1).take m.2 := by
        rw [← hmk]
        rfl
      rw [he] at hdata
      have hlen := congrArg List.length hdata
      simp [List.length_take, List.length_drop] at hlen
      omega
    rcases h with h | h | h
    · exact key aiRules (fun r hr => hcons r (by simp [hr])) h
    · exact key style_suggestions (fun r hr => hcons r (by simp [hr])) h
    · exact key gas_optimization_patterns (fun r hr => hcons r (by simp [hr])) h

theorem no_empty_matches_witness :
    scan_file ("claude" ++ "\n") = scan_file "claude" ∧
    (⟨1, "claude", "claude", aiSuggestion⟩ : Finding).matched ≠ "" :=
  ⟨no_empty_matches.2.1 "claude",
   no_empty_matches.2.2 "claude" ⟨1, "claude", "claude", aiSuggestion⟩
     (Or.inl (by decide))⟩

/-- C9: each of the three finding lists of `scan_file` is the key-erased
image of the instrumented scan `scanKeyed`, whose keys
`(line number, rule declaration index, match start)` are strictly
increasing in lexicographic order along the list: findings sharing a line
appear in rule declaration order, and findings sharing line and rule appear
in left-to-right order of match start. -/
theorem scan_file_sorted_by_keys (content : String) :
    ((scanKeyed aiRules 1 (splitLines content.data)).map Prod.snd =
        (scan_file content).1 ∧
      List.Pairwise keyLt
        ((scanKeyed aiRules 1 (splitLines content.data)).map Prod.fst)) ∧
    ((scanKeyed style_suggestions 1 (splitLines content.data)).map Prod.snd =
        (scan_file content).2.1 ∧
      List.Pairwise keyLt
        ((scanKeyed style_suggestions 1 (splitLines content.data)).map Prod.fst)) ∧
    ((scanKeyed gas_optimization_patterns 1 (splitLines content.data)).map Prod.snd =
        (scan_file content).2.2 ∧
      List.Pairwise keyLt
        ((scanKeyed gas_optimization_patterns 1 (splitLines content.data)).map
          Prod.fst)) :=
  ⟨⟨scanKeyed_map_snd aiRules _ 1,
    (List.pairwise_map).mpr (scanKeyed_pairwise aiRules _ 1)⟩,
   ⟨scanKeyed_map_snd style_suggestions _ 1,
    (List.pairwise_map).mpr (scanKeyed_pairwise style_suggestions _ 1)⟩,
   ⟨scanKeyed_map_snd gas_optimization_patterns _ 1,
    (List.pairwise_map).mpr (scanKeyed_pairwise gas_optimization_patterns _ 1)⟩⟩

/-- C10: the scanner splits its input on the line-feed character only: a
carriage return does not terminate a line, so input without `'\n'` is a
single line (every finding is on line 1) however many `'\r'` it contains,
and in CRLF input the `'\r'` stays in the preceding line's text and can
appear inside a finding's matched substring. -/
theorem newline_only_split :
    (∀ content : String, (∀ c ∈ content.data, c ≠ '\n') →
      ∀ f : Finding,
        (f ∈ (scan_file content).1 ∨ f ∈ (scan_file content).2.1 ∨
         f ∈ (scan_file content).2.2) → f.line = 1) ∧
    scan_file "require(a\r,b)\r\nclaude" =
      ([⟨2, "claude", "claude", aiSuggestion⟩], [],
       [⟨1, "require\\((.+?),[^)]+\\)", "require(a\r,b)",
         "Consider using custom errors instead of require with messages"⟩]) := by
  constructor
  · intro content hnl f h
    have hsplit := splitLines_no_newline content.data hnl
    have key : ∀ rules : List Rule,
        f ∈ scanLinesFrom rules 1 (splitLines content.data) → f.line = 1 := by
      intro rules hf
      rw [hsplit] at hf
      simp only [scanLinesFrom, List.append_nil] at hf
      exact lineFindings_line rules 1 content.data f hf
    rcases h with h | h | h
    · exact key aiRules h
    · exact key style_suggestions h
    · exact key gas_optimization_patterns h
  · decide

theorem newline_only_split_witness :
    (⟨1, "claude", "claude", aiSuggestion⟩ : Finding).line = 1 :=
  newline_only_split.1 "claude" (by decide) ⟨1, "claude", "claude", aiSuggestion⟩
    (Or.inl (by decide))

/-- C8: `generate_report` emits the single "no issues found" confirmation
exactly when all three finding lists are empty: in that case the output is
the bordered file header followed only by that confirmation, with none of
the three category headers; when at least one list is non-empty the
confirmation is not emitted. -/
theorem report_no_issues (ai st gas : List Finding) (fp : String) :
    (ai = [] ∧ st = [] ∧ gas = [] →
      generate_report (ai, st, gas) fp =
        ["\n" ++ reportBorder, "Scan Results for " ++ fp, reportBorder ++ "\n",
         noIssuesMsg] ∧
      aiHeader ∉ generate_report (ai, st, gas) fp ∧
      styleHeader ∉ generate_report (ai, st, gas) fp ∧
      gasHeader ∉ generate_report (ai, st, gas) fp) ∧
    (¬(ai = [] ∧ st = [] ∧ gas = []) →
      noIssuesMsg ∉ generate_report (ai, st, gas) fp) := by
  constructor
  · rintro ⟨rfl, rfl, rfl⟩
    have heq : generate_report (([] : List Finding), ([] : List Finding),
        ([] : List Finding)) fp =
        ["\n" ++ reportBorder, "Scan Results for " ++ fp, reportBorder ++ "\n",
         noIssuesMsg] := by
      rw [generate_report_eq]
      simp [sectionLines]
    refine ⟨heq, ?_, ?_, ?_⟩ <;> rw [heq] <;> intro hmem
    · rcases List.mem_cons.mp hmem with h | hmem
      · exact (by decide : aiHeader ≠ "\n" ++ reportBorder) h
      rcases List.mem_cons.mp hmem with h | hmem
      · exact (append_head_ne (by decide : ('S' : Char) ≠ '\n') rfl rfl fp) h.symm
      rcases List.mem_cons.mp hmem with h | hmem
      · exact (append_head_ne (by decide : ('=' : Char) ≠ '\n') rfl rfl "\n") h.symm
      rcases List.mem_cons.mp hmem with h | hmem
      · exact (by decide : aiHeader ≠ noIssuesMsg) h
      · simp at hmem
    · rcases List.mem_cons.mp hmem with h | hmem
      · exact (by decide : styleHeader ≠ "\n" ++ reportBorder) h
      rcases List.mem_cons.mp hmem with h | hmem
      · exact (append_head_ne (by decide : ('S' : Char) ≠ '\n') rfl rfl fp) h.symm
      rcases List.mem_cons.mp hmem with h | hmem
      · exact (append_head_ne (by decide : ('=' : Char) ≠ '\n') rfl rfl "\n") h.symm
      rcases List.mem_cons.mp hmem with h | hmem
      · exact (by decide : styleHeader ≠ noIssuesMsg) h
      · simp at hmem
    · rcases List.mem_cons.mp hmem with h | hmem
      · exact (by decide : gasHeader ≠ "\n" ++ reportBorder) h
      rcases List.mem_cons.mp hmem with h | hmem
      · exact (append_head_ne (by decide : ('S' : Char) ≠ '\n') rfl rfl fp) h.symm
      rcases List.mem_cons.mp hmem with h | hmem
      · exact (append_head_ne (by decide : ('=' : Char) ≠ '\n') rfl rfl "\n") h.symm
      rcases List.mem_cons.mp hmem with h | hmem
      · exact (by decide : gasHeader ≠ noIssuesMsg) h
      · simp at hmem
  · intro hne
    rw [generate_report_eq]
    intro hmem
    have hcond : (ai.isEmpty && st.isEmpty && gas.isEmpty) = false := by
      by_contra hb
      apply hne
      have hb2 : (ai.isEmpty && st.isEmpty && gas.isEmpty) = true := by
        revert hb
        cases ai.isEmpty && st.isEmpty && gas.isEmpty <;> simp
      simp only [Bool.and_eq_true, List.isEmpty_iff] at hb2
      exact ⟨hb2.1.1, hb2.1.2, hb2.2⟩
    rcases List.mem_append.mp hmem with hmem | hmem
    · rcases List.mem_append.mp hmem with hmem | hmem
      · rcases List.mem_append.mp hmem with hmem | hmem
        · rcases List.mem_append.mp hmem with hmem | hmem
          · rcases List.mem_cons.mp hmem with h | hmem
            · exact (by decide : noIssuesMsg ≠ "\n" ++ reportBorder) h
            rcases List.mem_cons.mp hmem with h | hmem
            · exact (append_head_ne (by decide : ('S' : Char) ≠ '✅') rfl rfl fp)
                h.symm
            rcases List.mem_cons.mp hmem with h | hmem
            · exact (append_head_ne (by decide : ('=' : Char) ≠ '✅') rfl rfl "\n")
                h.symm
            · simp at hmem
          · exact noIssues_notin_section aiHeader ai (by decide) hmem
        · exact noIssues_notin_section styleHeader st (by decide) hmem
      · exact noIssues_notin_section gasHeader gas (by decide) hmem
    · simp [hcond] at hmem

theorem report_no_issues_witness :
    generate_report (([] : List Finding), ([] : List Finding),
        ([] : List Finding)) "a.sol" =
      ["\n" ++ reportBorder, "Scan Results for " ++ "a.sol", reportBorder ++ "\n",
       noIssuesMsg] ∧
    noIssuesMsg ∉
      generate_report ([⟨1, "claude", "claude", aiSuggestion⟩], ([] : List Finding),
        ([] : List Finding)) "a.sol" :=
  ⟨((report_no_issues [] [] [] "a.sol").1 ⟨rfl, rfl, rfl⟩).1,
   (report_no_issues [⟨1, "claude", "claude", aiSuggestion⟩] [] [] "a.sol").2
     (by simp)⟩
